import Mathlib

/-!
Shallow embedding of the CommitGen change-analysis pipeline
(`src/cli/strategies/analysis.strategy.ts` and `src/cli/cli.module.ts`).

Strings are modelled as Lean `String` (a list of characters; adequate for the
BMP strings the tool manipulates).  JavaScript plain objects used as
insertion-ordered maps (`Record<string, ...>` built by `reduce` and iterated
with `Object.entries`) are modelled as association lists together with the
ECMAScript own-property-key ordering: keys that are canonical array indices
(digit strings with no leading zero whose value is < 2^32 - 1) come first in
ascending numeric order, followed by the remaining string keys in insertion
order.  Property reads on those objects go through the prototype chain: a
fresh key that names an `Object.prototype` member reads the inherited truthy
member, which makes the directory grouping's `if (!acc[dir])` skip its
initialisation and the following `.push` throw a `TypeError`; fallible
functions therefore return `Option`, with `none` for a thrown exception.
`path.dirname` / `path.basename` are modelled after Node's POSIX
implementations.
-/

/-- One record of `git status --porcelain` output, as produced by
`CommitGenCommand.parseGitStatus`: a status code and a file path. -/
structure ChangeRecord where
  status : String
  file : String
deriving DecidableEq, Repr

/-! ## Node `path` model (POSIX) -/

/-- Scan of Node's `path.posix.dirname` loop: indices `len-1 .. 1` of the
path are examined right to left; trailing slashes are skipped, and the first
slash that follows a non-slash character (reading right to left) is the end
of the directory part.  Returns `none` when no such slash exists. -/
def dirnameEnd (cs : List Char) : Nat → Bool → Option Nat
  | 0, _ => none
  | Nat.succ j, matchedSlash =>
    if cs.getD (Nat.succ j) ' ' = '/' then
      if matchedSlash then dirnameEnd cs j matchedSlash
      else some (Nat.succ j)
    else dirnameEnd cs j false

/-- Node `path.posix.dirname`. -/
def dirname (s : String) : String :=
  match s.data with
  | [] => "."
  | c0 :: _ =>
    let cs := s.data
    let hasRoot := c0 = '/'
    match dirnameEnd cs (cs.length - 1) true with
    | none => if hasRoot then "/" else "."
    | some e => if hasRoot ∧ e = 1 then "//" else ⟨cs.take e⟩

/-- Node `path.posix.basename` (no extension argument): the last path
segment once trailing slashes are stripped. -/
def basename (s : String) : String :=
  let rev := s.data.reverse.dropWhile (fun c => c = '/')
  ⟨(rev.takeWhile (fun c => ¬ c = '/')).reverse⟩

/-! ## JavaScript string primitives -/

/-- JavaScript `String.prototype.trim` (over the ASCII whitespace the tool
ever meets): strip leading and trailing whitespace characters. -/
def jsTrim (s : String) : String :=
  ⟨((s.data.dropWhile Char.isWhitespace).reverse.dropWhile Char.isWhitespace).reverse⟩

/-- JavaScript `String.prototype.split` with a one-character separator:
consecutive separators and separators at either end produce empty pieces. -/
def splitOnChar (sep : Char) : List Char → List (List Char)
  | [] => [[]]
  | c :: cs =>
    match splitOnChar sep cs, decide (c = sep) with
    | rest, true => [] :: rest
    | [], false => [[c]]
    | r :: rs, false => (c :: r) :: rs

/-- JavaScript `statusOutput.split('\n')`. -/
def jsSplitLines (s : String) : List String :=
  (splitOnChar '\n' s.data).map (fun cs => ⟨cs⟩)

/-! ## ECMAScript object-key ordering -/

/-- Decimal value of a digit string (JS code-unit arithmetic). -/
def digitsToNat (l : List Char) : Nat :=
  l.foldl (fun n c => n * 10 + (c.toNat - '0'.toNat)) 0

/-- ECMAScript "array index" test for a property key: a canonical numeric
string (all digits, round-trips through its numeric value, so no leading
zeros) whose value is below `2^32 - 1`. -/
def isArrayIndex (s : String) : Bool :=
  !s.data.isEmpty && s.data.all Char.isDigit
    && decide (s = toString (digitsToNat s.data))
    && decide (digitsToNat s.data < 4294967295)

/-- Numeric value of a key (only compared on array indices). -/
def keyNat (s : String) : Nat := digitsToNat s.data

/-- Insertion step of a stable insertion sort on the numeric value of the
first component. -/
def insertSorted (x : String × α) : List (String × α) → List (String × α)
  | [] => [x]
  | y :: ys => if keyNat x.1 ≤ keyNat y.1 then x :: y :: ys else y :: insertSorted x ys

/-- Stable sort of an association list by the numeric value of its keys. -/
def sortByIndex (l : List (String × α)) : List (String × α) :=
  l.foldr insertSorted []

/-- Order in which `Object.entries` enumerates the keys of a plain object
whose properties were created in the order of the association list `l`:
array-index keys first, ascending numerically, then the remaining keys in
creation (insertion) order. -/
def jsEntriesOrder (l : List (String × α)) : List (String × α) :=
  sortByIndex (l.filter (fun p => isArrayIndex p.1))
    ++ l.filter (fun p => !isArrayIndex p.1)

/-! ## FileListStrategy -/

/-- `FileListStrategy.getStatusDescription`: the literal-object lookup
`descriptions[status] || status`. -/
def FileListStrategy.getStatusDescription (status : String) : String :=
  if status = "M" then "modificado"
  else if status = "A" then "adicionado"
  else if status = "D" then "deletado"
  else if status = "R" then "renomeado"
  else if status = "??" then "não rastreado"
  else status

/-- `FileListStrategy.analyze`: header plus one numbered line per record,
accumulated exactly as the source's `forEach` over `(record, index)`. -/
def FileListStrategy.analyze (files : List ChangeRecord) : String :=
  files.enum.foldl
    (fun message p =>
      let statusDesc := FileListStrategy.getStatusDescription p.2.status
      let dir := dirname p.2.file
      let fileName := basename p.2.file
      let pre := if dir = "." then "" else dir ++ "/"
      message ++ toString (p.1 + 1) ++ ". " ++ pre ++ fileName
        ++ " (" ++ statusDesc ++ ")\n")
    "Arquivos alterados:\n"

/-! ## DirectorySummaryStrategy -/

/-- Directory key used by `groupFilesByDirectory`:
`path.dirname(file) || '.'` (the JS `||` turns an empty string into `.`). -/
def dirOf (file : String) : String :=
  if dirname file = "" then "." else dirname file

/-- The own property names of `Object.prototype`: property reads on a plain
object literal that miss every own key fall through the prototype chain and
resolve to the corresponding inherited member (a function, or for
`__proto__` the accessor returning `Object.prototype`) — in every case a
truthy, non-array value. -/
def objectPrototypeKeys : List String :=
  ["constructor", "hasOwnProperty", "isPrototypeOf", "propertyIsEnumerable",
    "toLocaleString", "toString", "valueOf", "__defineGetter__",
    "__defineSetter__", "__lookupGetter__", "__lookupSetter__", "__proto__"]

/-- One step of the `reduce` in `groupFilesByDirectory`:
`if (!acc[dir]) { acc[dir] = []; } acc[dir].push(name)` on a plain `{}`.
An existing own key keeps its position and gets the name appended; a fresh
ordinary key is appended at the end; but a fresh key that names an
`Object.prototype` member reads the inherited truthy member, skips the
initialisation, and the `.push` call on it throws a `TypeError` (`none`). -/
def insertGroup (dir fn : String) :
    List (String × List String) → Option (List (String × List String))
  | [] => if dir ∈ objectPrototypeKeys then none else some [(dir, [fn])]
  | (k, v) :: rest =>
    if k = dir then some ((k, v ++ [fn]) :: rest)
    else (insertGroup dir fn rest).map (fun acc1 => (k, v) :: acc1)

/-- `DirectorySummaryStrategy.groupFilesByDirectory`: the `reduce` that
groups basenames by directory, in property-creation order; `none` when a
directory name collides with an `Object.prototype` member and the `reduce`
throws. -/
def DirectorySummaryStrategy.groupFilesByDirectory
    (files : List ChangeRecord) : Option (List (String × List String)) :=
  files.foldlM (fun acc r => insertGroup (dirOf r.file) (basename r.file) acc) []

/-- The successful path of `insertGroup` as a total function: the object
update restricted to directory names that do not collide with
`Object.prototype` members (`insertGroup` agrees with `some` of this there,
see `insertGroup_eq_insertPure`). -/
def insertPure (dir fn : String) : List (String × List String) → List (String × List String)
  | [] => [(dir, [fn])]
  | (k, v) :: rest =>
    if k = dir then (k, v ++ [fn]) :: rest
    else (k, v) :: insertPure dir fn rest

/-- The grouping computed on the successful path of
`groupFilesByDirectory`. -/
def groupFilesPure (files : List ChangeRecord) : List (String × List String) :=
  files.foldl (fun acc r => insertPure (dirOf r.file) (basename r.file) acc) []

/-- `DirectorySummaryStrategy.analyze`: header, then for each directory (in
`Object.entries` order) a count line followed by one bullet per basename;
`none` when the grouping throws. -/
def DirectorySummaryStrategy.analyze (files : List ChangeRecord) : Option String :=
  (DirectorySummaryStrategy.groupFilesByDirectory files).map (fun filesByDir =>
    (jsEntriesOrder filesByDir).foldl
      (fun message p =>
        let dirName := if p.1 = "." then "raiz" else p.1
        let message := message ++ "\n" ++ dirName ++ "/ ("
          ++ toString p.2.length ++ " arquivo(s)):\n"
        p.2.foldl (fun m f => m ++ "  - " ++ f ++ "\n") message)
      "\nResumo por diretório:\n")

/-! ## TypeSummaryStrategy -/

/-- One step of the `reduce` in `countStatusTypes`: JS
`acc[status] = (acc[status] || 0) + 1` on an association list. -/
def incrStatus (status : String) : List (String × Nat) → List (String × Nat)
  | [] => [(status, 1)]
  | (k, n) :: rest =>
    if k = status then (k, n + 1) :: rest
    else (k, n) :: incrStatus status rest

/-- `TypeSummaryStrategy.countStatusTypes`: occurrence counts per status
code, in property-creation order. -/
def TypeSummaryStrategy.countStatusTypes (files : List ChangeRecord) : List (String × Nat) :=
  files.foldl (fun acc r => incrStatus r.status acc) []

/-- `TypeSummaryStrategy.getStatusDescription` (a verbatim duplicate of the
one in `FileListStrategy`). -/
def TypeSummaryStrategy.getStatusDescription (status : String) : String :=
  if status = "M" then "modificado"
  else if status = "A" then "adicionado"
  else if status = "D" then "deletado"
  else if status = "R" then "renomeado"
  else if status = "??" then "não rastreado"
  else status

/-- `TypeSummaryStrategy.analyze`: header plus one line per distinct status
in `Object.entries` order. -/
def TypeSummaryStrategy.analyze (files : List ChangeRecord) : String :=
  let statusTypes := TypeSummaryStrategy.countStatusTypes files
  (jsEntriesOrder statusTypes).foldl
    (fun message p =>
      message ++ "- " ++ toString p.2 ++ " arquivo(s) "
        ++ TypeSummaryStrategy.getStatusDescription p.1 ++ "\n")
    "\nTipos de alteração:\n"

/-! ## CommitGenCommand -/

/-- The record built from one non-blank line of `git status --porcelain`
output: `{ status: line.slice(0, 2).trim(), file: line.slice(3).trim() }`. -/
def recordOfLine (line : String) : ChangeRecord :=
  { status := jsTrim ⟨line.data.take 2⟩
    file := jsTrim ⟨line.data.drop 3⟩ }

/-- `CommitGenCommand.parseGitStatus`: split on newlines, drop lines blank
after trimming, map the rest to records. -/
def CommitGenCommand.parseGitStatus (statusOutput : String) : List ChangeRecord :=
  ((jsSplitLines statusOutput).filter (fun line => (jsTrim line).length > 0)).map recordOfLine

/-- The three members of the `strategies` array, in registration order. -/
inductive StrategyTag where
  | fileList
  | dirSummary
  | typeSummary
deriving DecidableEq, Repr

/-- Dispatch of `strategy.analyze(filesChanged)`; `none` when the call
throws (only the directory summary can). -/
def applyStrategy : StrategyTag → List ChangeRecord → Option String
  | StrategyTag.fileList, files => some (FileListStrategy.analyze files)
  | StrategyTag.dirSummary, files => DirectorySummaryStrategy.analyze files
  | StrategyTag.typeSummary, files => some (TypeSummaryStrategy.analyze files)

/-- `CommitGenCommand.strategies`: the fixed registration order. -/
def CommitGenCommand.strategies : List StrategyTag :=
  [StrategyTag.fileList, StrategyTag.dirSummary, StrategyTag.typeSummary]

/-- `options.tipo || 'feat'`: the commit-type option with its JS-falsy
default (absent or empty string means `feat`). -/
def tipoOrFeat : Option String → String
  | none => "feat"
  | some t => if t = "" then "feat" else t

/-- Core of `CommitGenCommand.run` after the `git status` call: the printed
message together with the number of strategy `analyze` invocations performed
before returning; `none` when a strategy throws and the exception escapes to
the top-level catch block (which prints an error and exits non-zero). -/
def CommitGenCommand.run (tipo : Option String) (statusOutput : String) :
    Option (String × Nat) :=
  let filesChanged := CommitGenCommand.parseGitStatus statusOutput
  if filesChanged.length = 0 then
    some (tipoOrFeat tipo ++ ": sem arquivos alterados", 0)
  else
    CommitGenCommand.strategies.foldlM
      (fun acc strat =>
        (applyStrategy strat filesChanged).map (fun t => (acc.1 ++ t, acc.2 + 1)))
      (tipoOrFeat tipo ++ ": alterações em " ++ toString filesChanged.length
        ++ " arquivo(s)\n\n", 0)

/-- The concatenated report of one pass of the strategy loop in
`CommitGenCommand.run` (the part of the message the strategies contribute);
`none` when a strategy throws. -/
def pipelineReport (files : List ChangeRecord) : Option String :=
  CommitGenCommand.strategies.foldlM
    (fun m strat => (applyStrategy strat files).map (fun t => m ++ t)) ""

/-! ## Observers used to state the claims -/

/-- Concatenation of a list of text fragments. -/
def concatAll (l : List String) : String := l.foldr (fun a b => a ++ b) ""

/-- The line the file-list strategy is specified to emit for the record at
(0-based) position `p.1`: `N. <dir>/<basename> (<status-description>)`, with
an empty prefix when the path has no directory component. -/
def fileLineText (p : Nat × ChangeRecord) : String :=
  toString (p.1 + 1) ++ ". "
    ++ (if dirname p.2.file = "." then "" else dirname p.2.file ++ "/")
    ++ basename p.2.file ++ " ("
    ++ FileListStrategy.getStatusDescription p.2.status ++ ")\n"

/-- The block the directory-summary strategy is specified to emit for one
directory entry: a count line followed by one bullet per basename. -/
def dirEntryText (p : String × List String) : String :=
  "\n" ++ (if p.1 = "." then "raiz" else p.1) ++ "/ ("
    ++ toString p.2.length ++ " arquivo(s)):\n"
    ++ concatAll (p.2.map (fun f => "  - " ++ f ++ "\n"))

/-- The line the type-summary strategy is specified to emit for one status
entry. -/
def typeLineText (p : String × Nat) : String :=
  "- " ++ toString p.2 ++ " arquivo(s) "
    ++ TypeSummaryStrategy.getStatusDescription p.1 ++ "\n"

/-- Keys of an association list, in order. -/
def keysOf (l : List (String × α)) : List String := l.map Prod.fst

/-- Value stored under a key in an association list (`[]` when absent). -/
def lookupGroup (d : String) : List (String × List String) → List String
  | [] => []
  | (k, v) :: rest => if k = d then v else lookupGroup d rest

/-- Sum of the reported per-directory counts. -/
def lensSum (l : List (String × List String)) : Nat :=
  (l.map (fun p => p.2.length)).sum

/-- Sum of the reported per-status counts. -/
def sndSum (l : List (String × Nat)) : Nat := (l.map Prod.snd).sum

/-- One step of first-seen deduplication: keep the list unchanged when the
key was already seen, otherwise append it. -/
def firstSeenStep (ks : List String) (d : String) : List String :=
  if d ∈ ks then ks else ks ++ [d]

/-- The distinct elements of a list in order of first occurrence. -/
def firstSeenKeys (l : List String) : List String := l.foldl firstSeenStep []

/-! ## Helper lemmas: report shapes -/

theorem concatAll_nil : concatAll [] = "" := rfl

theorem concatAll_cons (x : String) (xs : List String) :
    concatAll (x :: xs) = x ++ concatAll xs := rfl

theorem fileList_loop (l : List (Nat × ChangeRecord)) (init : String) :
    l.foldl
      (fun message p =>
        let statusDesc := FileListStrategy.getStatusDescription p.2.status
        let dir := dirname p.2.file
        let fileName := basename p.2.file
        let pre := if dir = "." then "" else dir ++ "/"
        message ++ toString (p.1 + 1) ++ ". " ++ pre ++ fileName
          ++ " (" ++ statusDesc ++ ")\n") init
      = init ++ concatAll (l.map fileLineText) := by
  induction l generalizing init with
  | nil => simp [concatAll, String.append_empty]
  | cons x xs ih =>
    simp only [List.foldl_cons, List.map_cons, concatAll_cons, ih]
    simp [fileLineText, String.append_assoc]

theorem fileList_analyze_eq (files : List ChangeRecord) :
    FileListStrategy.analyze files
      = "Arquivos alterados:\n" ++ concatAll (files.enum.map fileLineText) :=
  fileList_loop files.enum "Arquivos alterados:\n"

theorem dirBullets_loop (fs : List String) (m : String) :
    fs.foldl (fun m f => m ++ "  - " ++ f ++ "\n") m
      = m ++ concatAll (fs.map (fun f => "  - " ++ f ++ "\n")) := by
  induction fs generalizing m with
  | nil => simp [concatAll, String.append_empty]
  | cons x xs ih =>
    simp only [List.foldl_cons, List.map_cons, concatAll_cons, ih]
    simp [String.append_assoc]

theorem dirSummary_loop (l : List (String × List String)) (init : String) :
    l.foldl
      (fun message p =>
        let dirName := if p.1 = "." then "raiz" else p.1
        let message := message ++ "\n" ++ dirName ++ "/ ("
          ++ toString p.2.length ++ " arquivo(s)):\n"
        p.2.foldl (fun m f => m ++ "  - " ++ f ++ "\n") message) init
      = init ++ concatAll (l.map dirEntryText) := by
  induction l generalizing init with
  | nil => simp [concatAll, String.append_empty]
  | cons x xs ih =>
    rw [List.foldl_cons, ih]
    show List.foldl _ _ x.2 ++ _ = _
    rw [dirBullets_loop]
    simp [dirEntryText, concatAll_cons, String.append_assoc]

theorem dirSummary_analyze_eq (files : List ChangeRecord)
    (g : List (String × List String))
    (hg : DirectorySummaryStrategy.groupFilesByDirectory files = some g) :
    DirectorySummaryStrategy.analyze files
      = some ("\nResumo por diretório:\n"
          ++ concatAll ((jsEntriesOrder g).map dirEntryText)) := by
  unfold DirectorySummaryStrategy.analyze
  rw [hg]
  show some _ = some _
  exact congrArg some (dirSummary_loop _ "\nResumo por diretório:\n")

theorem typeSummary_loop (l : List (String × Nat)) (init : String) :
    l.foldl
      (fun message p =>
        message ++ "- " ++ toString p.2 ++ " arquivo(s) "
          ++ TypeSummaryStrategy.getStatusDescription p.1 ++ "\n") init
      = init ++ concatAll (l.map typeLineText) := by
  induction l generalizing init with
  | nil => simp [concatAll, String.append_empty]
  | cons x xs ih =>
    simp only [List.foldl_cons, List.map_cons, concatAll_cons, ih]
    simp [typeLineText, String.append_assoc]

theorem typeSummary_analyze_eq (files : List ChangeRecord) :
    TypeSummaryStrategy.analyze files
      = "\nTipos de alteração:\n"
        ++ concatAll
          ((jsEntriesOrder (TypeSummaryStrategy.countStatusTypes files)).map typeLineText) :=
  typeSummary_loop _ "\nTipos de alteração:\n"

/-! ## Helper lemmas: the association-list maps -/

theorem lookupGroup_insert_self (d fn : String) (acc : List (String × List String)) :
    lookupGroup d (insertPure d fn acc) = lookupGroup d acc ++ [fn] := by
  induction acc with
  | nil => simp [insertPure, lookupGroup]
  | cons kv rest ih =>
    obtain ⟨k, v⟩ := kv
    by_cases h : k = d
    · subst h; simp [insertPure, lookupGroup]
    · simp [insertPure, lookupGroup, h, ih]

theorem lookupGroup_insert_other {d e : String} (h : d ≠ e) (fn : String)
    (acc : List (String × List String)) :
    lookupGroup d (insertPure e fn acc) = lookupGroup d acc := by
  induction acc with
  | nil => simp [insertPure, lookupGroup, Ne.symm h]
  | cons kv rest ih =>
    obtain ⟨k, v⟩ := kv
    by_cases hk : k = e
    · subst hk; simp [insertPure, lookupGroup, Ne.symm h]
    · by_cases hd : k = d
      · subst hd; simp [insertPure, lookupGroup, hk]
      · simp [insertPure, lookupGroup, hk, hd, ih]

theorem groupFold_lookup (files : List ChangeRecord)
    (acc : List (String × List String)) (d : String) :
    lookupGroup d
        (files.foldl (fun acc r => insertPure (dirOf r.file) (basename r.file) acc) acc)
      = lookupGroup d acc
        ++ (files.filter (fun r => dirOf r.file = d)).map (fun r => basename r.file) := by
  induction files generalizing acc with
  | nil => simp
  | cons r rs ih =>
    rw [List.foldl_cons, ih]
    by_cases h : dirOf r.file = d
    · subst h
      simp [List.filter_cons, lookupGroup_insert_self, List.append_assoc]
    · have h2 : d ≠ dirOf r.file := fun he => h he.symm
      simp [List.filter_cons, h, lookupGroup_insert_other h2]

theorem keys_insertPure (d fn : String) (acc : List (String × List String)) :
    keysOf (insertPure d fn acc) = firstSeenStep (keysOf acc) d := by
  induction acc with
  | nil => simp [insertPure, keysOf, firstSeenStep]
  | cons kv rest ih =>
    obtain ⟨k, v⟩ := kv
    by_cases h : k = d
    · subst h; simp [insertPure, keysOf, firstSeenStep]
    · have ih2 : List.map Prod.fst (insertPure d fn rest)
        = firstSeenStep (List.map Prod.fst rest) d := ih
      by_cases hm : d ∈ List.map Prod.fst rest
      · simp [insertPure, keysOf, firstSeenStep, h, Ne.symm h, hm, ih2]
      · simp [insertPure, keysOf, firstSeenStep, h, Ne.symm h, hm, ih2]

theorem keys_groupFold (files : List ChangeRecord) (acc : List (String × List String)) :
    keysOf (files.foldl (fun acc r => insertPure (dirOf r.file) (basename r.file) acc) acc)
      = (files.map (fun r => dirOf r.file)).foldl firstSeenStep (keysOf acc) := by
  induction files generalizing acc with
  | nil => simp
  | cons r rs ih =>
    rw [List.foldl_cons, ih, keys_insertPure, List.map_cons, List.foldl_cons]

theorem keys_group (files : List ChangeRecord) :
    keysOf (groupFilesPure files)
      = firstSeenKeys (files.map (fun r => dirOf r.file)) := by
  have h := keys_groupFold files []
  simpa [groupFilesPure, firstSeenKeys, keysOf] using h

theorem insertGroup_eq_insertPure (dir fn : String)
    (hdir : dir ∉ objectPrototypeKeys) (acc : List (String × List String)) :
    insertGroup dir fn acc = some (insertPure dir fn acc) := by
  induction acc with
  | nil => simp [insertGroup, insertPure, hdir]
  | cons kv rest ih =>
    obtain ⟨k, v⟩ := kv
    by_cases h : k = dir
    · subst h; simp [insertGroup, insertPure]
    · simp [insertGroup, insertPure, h, ih]

theorem group_eq_pure (files : List ChangeRecord)
    (hsafe : ∀ d ∈ files.map (fun r => dirOf r.file), d ∉ objectPrototypeKeys) :
    ∀ acc : List (String × List String),
      files.foldlM (fun acc r => insertGroup (dirOf r.file) (basename r.file) acc) acc
        = some
            (files.foldl (fun acc r => insertPure (dirOf r.file) (basename r.file) acc) acc) := by
  induction files with
  | nil => intro acc; rfl
  | cons r rs ih =>
    intro acc
    have hd : dirOf r.file ∉ objectPrototypeKeys := hsafe _ (by simp)
    have hs2 : ∀ d ∈ rs.map (fun r => dirOf r.file), d ∉ objectPrototypeKeys := by
      intro d hdm
      exact hsafe d (by simp [List.mem_map] at hdm ⊢; exact Or.inr hdm)
    rw [List.foldlM_cons, insertGroup_eq_insertPure _ _ hd]
    show List.foldlM (fun acc r => insertGroup (dirOf r.file) (basename r.file) acc)
        (insertPure (dirOf r.file) (basename r.file) acc) rs = _
    rw [ih hs2, List.foldl_cons]

theorem lensSum_insert (d fn : String) (acc : List (String × List String)) :
    lensSum (insertPure d fn acc) = lensSum acc + 1 := by
  induction acc with
  | nil => simp [insertPure, lensSum]
  | cons kv rest ih =>
    obtain ⟨k, v⟩ := kv
    by_cases h : k = d
    · subst h; simp [insertPure, lensSum]; omega
    · simp [insertPure, lensSum, h] at ih ⊢; omega

theorem lensSum_groupFold (files : List ChangeRecord) (acc : List (String × List String)) :
    lensSum (files.foldl (fun acc r => insertPure (dirOf r.file) (basename r.file) acc) acc)
      = lensSum acc + files.length := by
  induction files generalizing acc with
  | nil => simp
  | cons r rs ih => rw [List.foldl_cons, ih, lensSum_insert]; simp; omega

theorem keys_incrStatus (s : String) (acc : List (String × Nat)) :
    keysOf (incrStatus s acc) = firstSeenStep (keysOf acc) s := by
  induction acc with
  | nil => simp [incrStatus, keysOf, firstSeenStep]
  | cons kv rest ih =>
    obtain ⟨k, n⟩ := kv
    by_cases h : k = s
    · subst h; simp [incrStatus, keysOf, firstSeenStep]
    · have ih2 : List.map Prod.fst (incrStatus s rest)
        = firstSeenStep (List.map Prod.fst rest) s := ih
      by_cases hm : s ∈ List.map Prod.fst rest
      · simp [incrStatus, keysOf, firstSeenStep, h, Ne.symm h, hm, ih2]
      · simp [incrStatus, keysOf, firstSeenStep, h, Ne.symm h, hm, ih2]

theorem keys_countFold (files : List ChangeRecord) (acc : List (String × Nat)) :
    keysOf (files.foldl (fun acc r => incrStatus r.status acc) acc)
      = (files.map ChangeRecord.status).foldl firstSeenStep (keysOf acc) := by
  induction files generalizing acc with
  | nil => simp
  | cons r rs ih =>
    rw [List.foldl_cons, ih, keys_incrStatus, List.map_cons, List.foldl_cons]

theorem keys_count (files : List ChangeRecord) :
    keysOf (TypeSummaryStrategy.countStatusTypes files)
      = firstSeenKeys (files.map ChangeRecord.status) := by
  have h := keys_countFold files []
  simpa [TypeSummaryStrategy.countStatusTypes, firstSeenKeys, keysOf] using h

theorem sndSum_incr (s : String) (acc : List (String × Nat)) :
    sndSum (incrStatus s acc) = sndSum acc + 1 := by
  induction acc with
  | nil => simp [incrStatus, sndSum]
  | cons kv rest ih =>
    obtain ⟨k, n⟩ := kv
    by_cases h : k = s
    · subst h; simp [incrStatus, sndSum]; omega
    · simp [incrStatus, sndSum, h] at ih ⊢; omega

theorem sndSum_countFold (files : List ChangeRecord) (acc : List (String × Nat)) :
    sndSum (files.foldl (fun acc r => incrStatus r.status acc) acc)
      = sndSum acc + files.length := by
  induction files generalizing acc with
  | nil => simp
  | cons r rs ih => rw [List.foldl_cons, ih, sndSum_incr]; simp; omega

/-! ## Helper lemmas: ECMAScript entry order -/

theorem insertSorted_perm (x : String × α) (l : List (String × α)) :
    (insertSorted x l).Perm (x :: l) := by
  induction l with
  | nil => exact List.Perm.refl _
  | cons y ys ih =>
    by_cases h : keyNat x.1 ≤ keyNat y.1
    · simp [insertSorted, h]
    · simp only [insertSorted, if_neg h]
      exact (List.Perm.cons y ih).trans (List.Perm.swap x y ys)

theorem sortByIndex_perm (l : List (String × α)) : (sortByIndex l).Perm l := by
  induction l with
  | nil => exact List.Perm.refl _
  | cons x xs ih =>
    exact (insertSorted_perm x (sortByIndex xs)).trans (List.Perm.cons x ih)

theorem jsEntriesOrder_perm (l : List (String × α)) : (jsEntriesOrder l).Perm l :=
  (List.Perm.append (sortByIndex_perm _) (List.Perm.refl _)).trans
    (List.filter_append_perm (fun p => isArrayIndex p.1) l)

theorem mem_jsEntriesOrder {l : List (String × α)} {p : String × α}
    (h : p ∈ jsEntriesOrder l) : p ∈ l :=
  ((jsEntriesOrder_perm l).mem_iff).mp h

theorem jsEntriesOrder_eq_self {l : List (String × α)}
    (h : ∀ p ∈ l, isArrayIndex p.1 = false) : jsEntriesOrder l = l := by
  have h1 : l.filter (fun p => isArrayIndex p.1) = [] :=
    List.filter_eq_nil_iff.mpr (fun a ha => by simp [h a ha])
  have h2 : l.filter (fun p => !isArrayIndex p.1) = l :=
    List.filter_eq_self.mpr (fun a ha => by simp [h a ha])
  simp [jsEntriesOrder, h1, h2, sortByIndex]

/-! ## Helper lemmas: first-seen key order -/

theorem firstSeenStep_nodup {acc : List String} (h : acc.Nodup) (d : String) :
    (firstSeenStep acc d).Nodup := by
  unfold firstSeenStep
  by_cases hm : d ∈ acc
  · simpa [hm] using h
  · rw [if_neg hm, List.nodup_append]
    refine ⟨h, List.nodup_singleton d, ?_⟩
    intro a ha had
    simp at had
    subst had
    exact hm ha

theorem foldl_firstSeenStep_nodup (l : List String) :
    ∀ acc : List String, acc.Nodup → (l.foldl firstSeenStep acc).Nodup := by
  induction l with
  | nil => intro acc h; simpa using h
  | cons d rest ih => intro acc h; exact ih _ (firstSeenStep_nodup h d)

theorem firstSeenKeys_nodup (l : List String) : (firstSeenKeys l).Nodup :=
  foldl_firstSeenStep_nodup l [] List.nodup_nil

theorem mem_foldl_firstSeenStep {x : String} (l : List String) :
    ∀ acc : List String, x ∈ l.foldl firstSeenStep acc → x ∈ acc ∨ x ∈ l := by
  induction l with
  | nil => intro acc h; exact Or.inl (by simpa using h)
  | cons d rest ih =>
    intro acc h
    rcases ih _ h with h1 | h1
    · unfold firstSeenStep at h1
      by_cases hm : d ∈ acc
      · rw [if_pos hm] at h1; exact Or.inl h1
      · rw [if_neg hm] at h1
        rcases List.mem_append.mp h1 with h2 | h2
        · exact Or.inl h2
        · simp at h2; subst h2; exact Or.inr (List.mem_cons_self _ _)
    · exact Or.inr (List.mem_cons_of_mem _ h1)

theorem mem_firstSeenKeys {x : String} {l : List String} (h : x ∈ firstSeenKeys l) : x ∈ l := by
  rcases mem_foldl_firstSeenStep l [] h with h1 | h1
  · exact absurd h1 (List.not_mem_nil x)
  · exact h1

theorem lookupGroup_of_mem :
    ∀ {l : List (String × List String)}, (keysOf l).Nodup →
      ∀ {k : String} {v : List String}, (k, v) ∈ l → lookupGroup k l = v := by
  intro l
  induction l with
  | nil => intro _ k v hm; cases hm
  | cons kv rest ih =>
    intro hnd k v hm
    obtain ⟨k1, v1⟩ := kv
    have hnd0 : (k1 :: keysOf rest).Nodup := hnd
    have hnd1 : (keysOf rest).Nodup := hnd0.of_cons
    rcases List.mem_cons.mp hm with h | h
    · injection h with h1 h2
      subst h1
      subst h2
      simp [lookupGroup]
    · have hk1 : ¬ k1 = k := by
        intro he
        subst he
        have hkm : k1 ∈ keysOf rest := by
          have hmap := List.mem_map_of_mem Prod.fst h
          simpa [keysOf] using hmap
        exact (List.nodup_cons.mp hnd0).1 hkm
      simp [lookupGroup, hk1, ih hnd1 h]

/-! ## Helper lemmas: strings -/

theorem string_length_pos_iff (s : String) : 0 < s.length ↔ ¬ s = "" := by
  cases s with
  | mk data =>
    cases data with
    | nil => simp [String.length, String.ext_iff]
    | cons c cs => simp [String.length, String.ext_iff]

/-! ## Claims -/

/-- Claim C1 (amended): for every ChangeSet none of whose directory names
collides with an `Object.prototype` member name, the directory summary
succeeds and groups records by the directory component of the path (`.`
when there is none): the per-directory counts it reports sum to the length
of the ChangeSet, the bullets under each reported directory are exactly the
basenames of that directory's records in ChangeSet order, and — provided
additionally no directory name is a canonical array-index string — the
directories appear in first-seen insertion order; array-index directory
names are instead hoisted to the front in ascending numeric order by the
ECMAScript object key ordering.  (On a directory name such as `toString`
the grouping instead throws; see the C7 record.) -/
theorem C1_directory_summary_grouping (files : List ChangeRecord)
    (hsafe : ∀ d ∈ files.map (fun r => dirOf r.file), d ∉ objectPrototypeKeys) :
    DirectorySummaryStrategy.groupFilesByDirectory files = some (groupFilesPure files)
    ∧ lensSum (jsEntriesOrder (groupFilesPure files)) = files.length
    ∧ (∀ p ∈ jsEntriesOrder (groupFilesPure files),
        p.2 = (files.filter (fun r => dirOf r.file = p.1)).map (fun r => basename r.file))
    ∧ ((∀ d ∈ files.map (fun r => dirOf r.file), isArrayIndex d = false) →
        keysOf (jsEntriesOrder (groupFilesPure files))
          = firstSeenKeys (files.map (fun r => dirOf r.file)))
    ∧ DirectorySummaryStrategy.analyze files
        = some ("\nResumo por diretório:\n"
            ++ concatAll ((jsEntriesOrder (groupFilesPure files)).map dirEntryText)) := by
  have hsome : DirectorySummaryStrategy.groupFilesByDirectory files
      = some (groupFilesPure files) := group_eq_pure files hsafe []
  refine ⟨hsome, ?_, ?_, ?_, dirSummary_analyze_eq files _ hsome⟩
  · have h1 : lensSum (jsEntriesOrder (groupFilesPure files))
        = lensSum (groupFilesPure files) :=
      List.Perm.sum_eq (List.Perm.map _ (jsEntriesOrder_perm _))
    have h2 : lensSum (groupFilesPure files)
        = lensSum [] + files.length := lensSum_groupFold files []
    rw [h1, h2]
    simp [lensSum]
  · intro p hp
    have hnd : (keysOf (groupFilesPure files)).Nodup := by
      rw [keys_group]
      exact firstSeenKeys_nodup _
    have hpG : p ∈ groupFilesPure files := mem_jsEntriesOrder hp
    obtain ⟨k, v⟩ := p
    have hl : lookupGroup k (groupFilesPure files) = v :=
      lookupGroup_of_mem hnd hpG
    have hg : lookupGroup k (groupFilesPure files)
        = lookupGroup k []
          ++ (files.filter (fun r => dirOf r.file = k)).map (fun r => basename r.file) :=
      groupFold_lookup files [] k
    rw [show lookupGroup k ([] : List (String × List String)) = [] from rfl,
      List.nil_append] at hg
    show v = (files.filter (fun r => dirOf r.file = k)).map (fun r => basename r.file)
    rw [← hl, hg]
  · intro h
    have hG : ∀ p ∈ groupFilesPure files, isArrayIndex p.1 = false := by
      intro p hp
      apply h
      apply mem_firstSeenKeys
      rw [← keys_group]
      exact List.mem_map_of_mem Prod.fst hp
    rw [jsEntriesOrder_eq_self hG, keys_group]

/-- Witness for C1 at the spec's example ChangeSet, whose directory names
(`src` and `.`) collide with no `Object.prototype` member and are no array
indices. -/
theorem C1_witness :
    DirectorySummaryStrategy.groupFilesByDirectory
        [⟨"M", "src/a.ts"⟩, ⟨"A", "src/b.ts"⟩, ⟨"??", "README.md"⟩]
      = some (groupFilesPure [⟨"M", "src/a.ts"⟩, ⟨"A", "src/b.ts"⟩, ⟨"??", "README.md"⟩])
    ∧ lensSum (jsEntriesOrder (groupFilesPure
        [⟨"M", "src/a.ts"⟩, ⟨"A", "src/b.ts"⟩, ⟨"??", "README.md"⟩])) = 3
    ∧ keysOf (jsEntriesOrder (groupFilesPure
          [⟨"M", "src/a.ts"⟩, ⟨"A", "src/b.ts"⟩, ⟨"??", "README.md"⟩]))
        = firstSeenKeys
            (([⟨"M", "src/a.ts"⟩, ⟨"A", "src/b.ts"⟩, ⟨"??", "README.md"⟩]
              : List ChangeRecord).map (fun r => dirOf r.file)) := by
  have h := C1_directory_summary_grouping
    [⟨"M", "src/a.ts"⟩, ⟨"A", "src/b.ts"⟩, ⟨"??", "README.md"⟩] (by decide)
  exact ⟨h.1, h.2.1, h.2.2.2.1 (by decide)⟩

/-- Counterexample for C1 as stated: with directories `src` (seen first) and
`7`, `Object.entries` hoists the array-index-like name `7` ahead of `src`,
so the directories do not appear in first-seen insertion order. -/
theorem C1_counterexample :
    DirectorySummaryStrategy.analyze [⟨"M", "src/a.ts"⟩, ⟨"M", "7/b.ts"⟩]
      = some "\nResumo por diretório:\n\n7/ (1 arquivo(s)):\n  - b.ts\n\nsrc/ (1 arquivo(s)):\n  - a.ts\n"
    ∧ DirectorySummaryStrategy.analyze [⟨"M", "src/a.ts"⟩, ⟨"M", "7/b.ts"⟩]
      ≠ some "\nResumo por diretório:\n\nsrc/ (1 arquivo(s)):\n  - a.ts\n\n7/ (1 arquivo(s)):\n  - b.ts\n" := by
  constructor
  · decide
  · decide

/-- Claim C2 (amended): every type-summary line has the exact format
`"- <count> arquivo(s) <status-description>"` (the source writes
`arquivo(s)`, not `file(s)`), and on the spec's example input the body is
`- 1 arquivo(s) modificado`, `- 1 arquivo(s) adicionado`,
`- 1 arquivo(s) não rastreado`, one per line. -/
theorem C2_type_summary_line_format (files : List ChangeRecord) :
    TypeSummaryStrategy.analyze files
      = "\nTipos de alteração:\n"
        ++ concatAll
          ((jsEntriesOrder (TypeSummaryStrategy.countStatusTypes files)).map
            (fun p => "- " ++ toString p.2 ++ " arquivo(s) "
              ++ TypeSummaryStrategy.getStatusDescription p.1 ++ "\n"))
    ∧ TypeSummaryStrategy.analyze [⟨"M", "src/a.ts"⟩, ⟨"A", "src/b.ts"⟩, ⟨"??", "README.md"⟩]
      = "\nTipos de alteração:\n- 1 arquivo(s) modificado\n- 1 arquivo(s) adicionado\n- 1 arquivo(s) não rastreado\n" :=
  ⟨typeSummary_analyze_eq files, by decide⟩

/-- Counterexample for C2 as stated: the type-summary lines read
`arquivo(s)`, not `file(s)`. -/
theorem C2_counterexample :
    TypeSummaryStrategy.analyze [⟨"M", "src/a.ts"⟩, ⟨"A", "src/b.ts"⟩, ⟨"??", "README.md"⟩]
      = "\nTipos de alteração:\n- 1 arquivo(s) modificado\n- 1 arquivo(s) adicionado\n- 1 arquivo(s) não rastreado\n"
    ∧ TypeSummaryStrategy.analyze [⟨"M", "src/a.ts"⟩, ⟨"A", "src/b.ts"⟩, ⟨"??", "README.md"⟩]
      ≠ "\nTipos de alteração:\n- 1 file(s) modificado\n- 1 file(s) adicionado\n- 1 file(s) não rastreado\n" := by
  constructor
  · decide
  · decide

/-- Claim C3: for every ChangeSet the file list emits, after its header,
exactly one line per record, numbered 1-based and contiguously in ChangeSet
order, each of the form `N. <dir>/<basename> (<status-description>)` with an
empty directory prefix (no `./`) for paths without a directory component;
`M`, `A`, `D`, `R`, `??` render as their Portuguese words and any other
status renders as the raw code itself. -/
theorem C3_file_list_format (files : List ChangeRecord) :
    FileListStrategy.analyze files
      = "Arquivos alterados:\n"
        ++ concatAll (files.enum.map (fun p =>
            toString (p.1 + 1) ++ ". "
              ++ (if dirname p.2.file = "." then "" else dirname p.2.file ++ "/")
              ++ basename p.2.file ++ " ("
              ++ FileListStrategy.getStatusDescription p.2.status ++ ")\n"))
    ∧ files.enum.length = files.length
    ∧ FileListStrategy.getStatusDescription "M" = "modificado"
    ∧ FileListStrategy.getStatusDescription "A" = "adicionado"
    ∧ FileListStrategy.getStatusDescription "D" = "deletado"
    ∧ FileListStrategy.getStatusDescription "R" = "renomeado"
    ∧ FileListStrategy.getStatusDescription "??" = "não rastreado"
    ∧ (∀ s : String, ¬ s = "M" → ¬ s = "A" → ¬ s = "D" → ¬ s = "R" → ¬ s = "??" →
        FileListStrategy.getStatusDescription s = s) := by
  refine ⟨fileList_analyze_eq files, List.enum_length,
    by decide, by decide, by decide, by decide, by decide, ?_⟩
  intro s h1 h2 h3 h4 h5
  simp [FileListStrategy.getStatusDescription, h1, h2, h3, h4, h5]

/-- Witness for C3 at the spec's example ChangeSet, with the raw-code
fallback exercised at the unmapped status `XY`. -/
theorem C3_witness :
    FileListStrategy.analyze [⟨"M", "src/a.ts"⟩, ⟨"A", "src/b.ts"⟩, ⟨"??", "README.md"⟩]
      = "Arquivos alterados:\n1. src/a.ts (modificado)\n2. src/b.ts (adicionado)\n3. README.md (não rastreado)\n"
    ∧ FileListStrategy.getStatusDescription "XY" = "XY" := by
  have h := C3_file_list_format [⟨"M", "src/a.ts"⟩, ⟨"A", "src/b.ts"⟩, ⟨"??", "README.md"⟩]
  refine ⟨?_, h.2.2.2.2.2.2.2 "XY" (by decide) (by decide) (by decide) (by decide) (by decide)⟩
  rw [h.1]
  decide

/-- Claim C4 (amended): for every ChangeSet the per-status counts reported
by the type summary sum to the length of the ChangeSet and each distinct
status appears exactly once; provided no status code is a canonical
array-index string, the statuses appear in first-seen insertion order
(array-index status codes are instead hoisted to the front in ascending
numeric order by the ECMAScript object key ordering). -/
theorem C4_type_summary_counts (files : List ChangeRecord) :
    sndSum (jsEntriesOrder (TypeSummaryStrategy.countStatusTypes files)) = files.length
    ∧ (keysOf (jsEntriesOrder (TypeSummaryStrategy.countStatusTypes files))).Nodup
    ∧ ((∀ s ∈ files.map ChangeRecord.status, isArrayIndex s = false) →
        keysOf (jsEntriesOrder (TypeSummaryStrategy.countStatusTypes files))
          = firstSeenKeys (files.map ChangeRecord.status))
    ∧ TypeSummaryStrategy.analyze files
        = "\nTipos de alteração:\n"
          ++ concatAll
            ((jsEntriesOrder (TypeSummaryStrategy.countStatusTypes files)).map
              typeLineText) := by
  refine ⟨?_, ?_, ?_, typeSummary_analyze_eq files⟩
  · have h1 : sndSum (jsEntriesOrder (TypeSummaryStrategy.countStatusTypes files))
        = sndSum (TypeSummaryStrategy.countStatusTypes files) :=
      List.Perm.sum_eq (List.Perm.map _ (jsEntriesOrder_perm _))
    have h2 : sndSum (TypeSummaryStrategy.countStatusTypes files)
        = sndSum [] + files.length := sndSum_countFold files []
    rw [h1, h2]
    simp [sndSum]
  · have hnd : (keysOf (TypeSummaryStrategy.countStatusTypes files)).Nodup := by
      rw [keys_count]
      exact firstSeenKeys_nodup _
    exact (((jsEntriesOrder_perm (TypeSummaryStrategy.countStatusTypes files)).map
      Prod.fst).symm).nodup hnd
  · intro h
    have hC : ∀ p ∈ TypeSummaryStrategy.countStatusTypes files,
        isArrayIndex p.1 = false := by
      intro p hp
      apply h
      apply mem_firstSeenKeys
      rw [← keys_count]
      exact List.mem_map_of_mem Prod.fst hp
    rw [jsEntriesOrder_eq_self hC, keys_count]

/-- Witness for C4 at the spec's example ChangeSet. -/
theorem C4_witness :
    sndSum (jsEntriesOrder (TypeSummaryStrategy.countStatusTypes
        [⟨"M", "src/a.ts"⟩, ⟨"A", "src/b.ts"⟩, ⟨"??", "README.md"⟩])) = 3
    ∧ keysOf (jsEntriesOrder (TypeSummaryStrategy.countStatusTypes
          [⟨"M", "src/a.ts"⟩, ⟨"A", "src/b.ts"⟩, ⟨"??", "README.md"⟩]))
        = firstSeenKeys
            (([⟨"M", "src/a.ts"⟩, ⟨"A", "src/b.ts"⟩, ⟨"??", "README.md"⟩]
              : List ChangeRecord).map ChangeRecord.status) := by
  have h := C4_type_summary_counts
    [⟨"M", "src/a.ts"⟩, ⟨"A", "src/b.ts"⟩, ⟨"??", "README.md"⟩]
  exact ⟨h.1, h.2.2.1 (by decide)⟩

/-- Counterexample for C4 as stated: a ChangeSet whose second status is the
array-index-like code `12` (as parsed from a line `12 b`) is reported with
`12` hoisted ahead of the first-seen status `M`. -/
theorem C4_counterexample :
    TypeSummaryStrategy.analyze [⟨"M", "a"⟩, ⟨"12", "b"⟩]
      = "\nTipos de alteração:\n- 1 arquivo(s) 12\n- 1 arquivo(s) modificado\n"
    ∧ keysOf (jsEntriesOrder (TypeSummaryStrategy.countStatusTypes
          [⟨"M", "a"⟩, ⟨"12", "b"⟩]))
        ≠ firstSeenKeys (([⟨"M", "a"⟩, ⟨"12", "b"⟩] : List ChangeRecord).map
            ChangeRecord.status) := by
  constructor
  · decide
  · decide

/-- Claim C5: `parseGitStatus` drops lines blank after trimming and maps
each remaining line to a record whose status is the line's first two
characters trimmed and whose path is the line's text from offset 3 onward
trimmed; unknown two-character codes pass through verbatim (the status is
whatever the slice yields, uninterpreted). -/
theorem C5_parse_git_status (statusOutput : String) :
    CommitGenCommand.parseGitStatus statusOutput
      = ((jsSplitLines statusOutput).filter (fun line => ¬ jsTrim line = "")).map
          (fun line =>
            { status := jsTrim ⟨line.data.take 2⟩
              file := jsTrim ⟨line.data.drop 3⟩ }) := by
  unfold CommitGenCommand.parseGitStatus
  have hf : (jsSplitLines statusOutput).filter (fun line => (jsTrim line).length > 0)
      = (jsSplitLines statusOutput).filter (fun line => ¬ jsTrim line = "") := by
    apply List.filter_congr
    intro x _
    rw [decide_eq_decide]
    exact string_length_pos_iff (jsTrim x)
  rw [hf]
  rfl

/-- Claim C6: when the parsed change list is empty the command prints
exactly `"<type>: sem arquivos alterados"` — where the type is the commit
type option, defaulting to `feat` — and invokes no analysis strategy (the
second component of `run`, the number of `analyze` calls, is 0). -/
theorem C6_empty_changeset (tipo : Option String) (statusOutput : String)
    (h : CommitGenCommand.parseGitStatus statusOutput = []) :
    CommitGenCommand.run tipo statusOutput
        = some (tipoOrFeat tipo ++ ": sem arquivos alterados", 0)
    ∧ CommitGenCommand.run none statusOutput
        = some ("feat: sem arquivos alterados", 0) := by
  constructor
  · simp [CommitGenCommand.run, h]
  · simp [CommitGenCommand.run, h, tipoOrFeat]

/-- Witness for C6: on empty `git status` output, both with an explicit
commit type and with the default. -/
theorem C6_witness :
    CommitGenCommand.run (some "docs") "" = some ("docs: sem arquivos alterados", 0)
    ∧ CommitGenCommand.run none "" = some ("feat: sem arquivos alterados", 0) :=
  C6_empty_changeset (some "docs") "" (by decide)

/-- Claim C7 (refuted by the code): the file-list and type-summary
strategies are total and return their header followed by a body on every
ChangeSet, and all three strategies return exactly their fixed header on
the empty ChangeSet — but the directory summary is *not* total: on the
reachable ChangeSet `[("M", "toString/a.ts")]` the lookup `acc["toString"]`
in `groupFilesByDirectory` resolves to the inherited truthy
`Object.prototype.toString`, the initialisation is skipped, and
`acc["toString"].push` throws a `TypeError` (`none` in the model), so
`analyze` fails instead of returning a report. -/
theorem C7_strategies_totality_violation :
    DirectorySummaryStrategy.analyze [⟨"M", "toString/a.ts"⟩] = none
    ∧ (∀ files : List ChangeRecord,
        (∃ rest : String, FileListStrategy.analyze files = "Arquivos alterados:\n" ++ rest)
        ∧ (∃ rest : String,
            TypeSummaryStrategy.analyze files = "\nTipos de alteração:\n" ++ rest))
    ∧ FileListStrategy.analyze [] = "Arquivos alterados:\n"
    ∧ DirectorySummaryStrategy.analyze [] = some "\nResumo por diretório:\n"
    ∧ TypeSummaryStrategy.analyze [] = "\nTipos de alteração:\n" :=
  ⟨by decide,
    fun files => ⟨⟨_, fileList_analyze_eq files⟩, ⟨_, typeSummary_analyze_eq files⟩⟩,
    by decide, by decide, by decide⟩

/-- Claim C8: the analysis pipeline is deterministic — running the fixed
strategy sequence over two identical ChangeSets, even twice, yields
identical results (character-for-character identical concatenated output on
the success path, the identical failure otherwise; the embedding has no
hidden state). -/
theorem C8_pipeline_deterministic (files1 files2 : List ChangeRecord)
    (h : files1 = files2) :
    pipelineReport files1 = pipelineReport files2
    ∧ (pipelineReport files1).map (fun s => s ++ s)
        = (pipelineReport files2).map (fun s => s ++ s) := by
  subst h
  exact ⟨rfl, rfl⟩

/-- Witness for C8 at a concrete ChangeSet. -/
theorem C8_witness :
    pipelineReport [⟨"M", "src/a.ts"⟩] = pipelineReport [⟨"M", "src/a.ts"⟩]
    ∧ (pipelineReport [⟨"M", "src/a.ts"⟩]).map (fun s => s ++ s)
        = (pipelineReport [⟨"M", "src/a.ts"⟩]).map (fun s => s ++ s) :=
  C8_pipeline_deterministic [⟨"M", "src/a.ts"⟩] [⟨"M", "src/a.ts"⟩] rfl

/-- Claim C9: the status-description mapping duplicated in
`FileListStrategy` and `TypeSummaryStrategy` is extensionally equal: both
return the same description for every status string. -/
theorem C9_status_description_agreement (status : String) :
    FileListStrategy.getStatusDescription status
      = TypeSummaryStrategy.getStatusDescription status := rfl

/-- Claim C10: `parseGitStatus` is total on malformed input — a non-blank
line shorter than 4 characters still yields a record (slicing past the end
of the line produces empty text, never a failure), and that record's path
is the empty string. -/
theorem C10_short_line_total (statusOutput line : String)
    (hmem : line ∈ jsSplitLines statusOutput)
    (hnb : 0 < (jsTrim line).length)
    (hlen : line.data.length < 4) :
    recordOfLine line ∈ CommitGenCommand.parseGitStatus statusOutput
    ∧ (recordOfLine line).file = "" := by
  constructor
  · unfold CommitGenCommand.parseGitStatus
    apply List.mem_map_of_mem
    exact List.mem_filter.mpr ⟨hmem, by simpa using hnb⟩
  · show jsTrim ⟨line.data.drop 3⟩ = ""
    have hd : line.data.drop 3 = [] := List.drop_eq_nil_of_le (by omega)
    rw [hd]
    decide

/-- Witness for C10: the 2-character line `AB` inside a two-line status
output parses to the record `{ status := "AB", file := "" }`. -/
theorem C10_witness :
    recordOfLine "AB" ∈ CommitGenCommand.parseGitStatus "M a\nAB"
    ∧ (recordOfLine "AB").file = "" :=
  C10_short_line_total "M a\nAB" "AB" (by decide) (by decide) (by decide)
